import Mathlib

/-!
Shallow embedding of `src/space.cpp` (lrr-tum/curly-potato).

The source file holds two versions of the program: an early 2-D prototype
(`space2d`, `_rm_order`, `_static_partition`) and the generalized N-dimensional
version (`impl::dense_space<DIM>`, `iteration<DIM>`, `impl::rm_next` /
`impl::cm_next`, `impl::static_partition`).  Both are embedded here.

Machine `int`s are modelled as unbounded `Int` (C++ signed overflow is
undefined behaviour; all claims stay far from `INT_MAX`).  The fixed-size
`std::array<int, DIM>` index tuples and bound tuples are modelled as
`List Int`; dimension count D is the list length.  C++ `/` on `int` truncates
toward zero, so it is embedded as `Int.tdiv`.
-/

namespace Curly

/-- Translation of `impl::dense_space<DIM>` (src/space.cpp lines 181-220):
per-dimension inclusive `start` and exclusive `limit`, tuple length = DIM. -/
structure Space where
  start : List Int
  limit : List Int
deriving DecidableEq

/-- Translation of `impl::dense_space::operator!=` (line 195):
`rhs.start != start || rhs.limit != limit`. -/
def spaceNe (a b : Space) : Bool :=
  decide (b.start ≠ a.start) || decide (b.limit ≠ a.limit)

/-- Translation of `iteration<DIM, spaceT>` (lines 149-174): the cursor holds
the current `index` tuple and (a copy of) its bound `_space`.  The `order`
member is a `std::function` used only for dispatch; `operator!=` does not
inspect it, so it is not part of the embedded state. -/
structure iteration where
  index : List Int
  space : Space
deriving DecidableEq

/-- Translation of `iteration::operator!=` (lines 164-166):
`rhs.index != index || rhs._space != _space`. -/
def iterNe (a b : iteration) : Bool :=
  decide (b.index ≠ a.index) || spaceNe a.space b.space

/-- Translation of `rm_order::begin` / `cm_order::begin` (lines 261-266 and
313-318): a cursor whose index is the space's `start` tuple (the `iteration`
constructor initializes `index(s.start)`). -/
def beginIter (S : Space) : iteration := ⟨S.start, S⟩

/-- Translation of `rm_order::end` / `cm_order::end` (lines 268-274 and
320-326): a cursor whose index is the space's `limit` tuple. -/
def endIter (S : Space) : iteration := ⟨S.limit, S⟩

/-- Translation of `impl::cm_next<N>` (lines 230-249), the column-major
successor, first dimension fastest.  The template recursion
`cm_next<N>::get` touches index `dim - N` (the list head at recursion depth
`dim - N`): it increments the entry; on overflow (`arr[index] >= limit[index]`)
it resets the entry to `start[index]` and carries into the next dimension.
The base template `cm_next<1>` (the singleton tail, last dimension) sets the
whole tuple to `space.limit` on overflow; that global assignment is encoded as
`none`, which the caller `cmNext` maps to `limit`, matching the override of
the intermediate resets.  The empty-list base and the length-mismatch
catch-all return `none`; they are unreachable from well-formed spaces
(`iteration<0>` is deleted in the source). -/
def cm_step : List Int → List Int → List Int → Option (List Int)
  | s0 :: ss, l0 :: ls, a0 :: bs =>
    if l0 ≤ a0 + 1 then (cm_step ss ls bs).map (fun r => s0 :: r)
    else some ((a0 + 1) :: bs)
  | _, _, _ => none

/-- Column-major successor on a whole space: `none` (carry out of the last
dimension) becomes the canonical terminal tuple `limit`, exactly as
`cm_next<1>` assigns `arr = space.limit`. -/
def cmNext (S : Space) (a : List Int) : List Int :=
  (cm_step S.start S.limit a).getD S.limit

/-- Translation of `impl::rm_next<N>` (lines 282-301), the row-major
successor, last dimension fastest.  `rm_next<N>::get` touches index `N - 1`,
so the top call increments the last entry and carries toward the head; the
base template `rm_next<1>` (index 0, the list head) sets the whole tuple to
`space.limit` on overflow.  Encoded with the same `Option` convention as
`cm_step`: the recursive call handles the faster (tail) dimensions; `none`
from the tail means every faster dimension overflowed and was reset to its
start, so this level increments its own entry and, on success, re-emits the
tail starts `ss`; its own overflow propagates `none`. -/
def rm_step : List Int → List Int → List Int → Option (List Int)
  | s0 :: ss, l0 :: ls, a0 :: bs =>
    match rm_step ss ls bs with
    | some r => some (a0 :: r)
    | none => if l0 ≤ a0 + 1 then none else some ((a0 + 1) :: ss)
  | _, _, _ => none

/-- Row-major successor on a whole space; `none` becomes `limit`
(`rm_next<1>` assigns `arr = space.limit`). -/
def rmNext (S : Space) (a : List Int) : List Int :=
  (rm_step S.start S.limit a).getD S.limit

/-- Translation of `impl::static_partition::partition` (lines 343-349):

`int size = limit[dim] - start[dim];`
`start[dim] = (size / threads) * id;`
`if (id != threads - 1) limit[dim] = size / threads * (id + 1);`

`id` and `threads` are read from `omp_get_thread_num()` /
`omp_get_num_threads()` in the source; they are passed as parameters here.
Note the source assigns `(size / threads) * id` to `start[dim]` without
adding the original `start[dim]`.  The 2-D prototype
`_static_partition::_static_partition` (lines 97-103) computes the same
formulas for its fixed dimension `i`. -/
def partition (S : Space) (dim : Nat) (id threads : Int) : Space :=
  let size : Int := S.limit.getD dim 0 - S.start.getD dim 0
  { start := S.start.set dim (size.tdiv threads * id)
    limit :=
      if id ≠ threads - 1 then S.limit.set dim (size.tdiv threads * (id + 1))
      else S.limit }

/-- Translation of the 2-D prototype `space2d` (lines 41-50). -/
structure space2d where
  start_i : Int
  end_i : Int
  start_j : Int
  end_j : Int
deriving DecidableEq

/-- Translation of the 2-D prototype `_rm_order::next` (lines 58-68):
`++i; if (i >= end_i) { i = start_i; ++j; if (j >= end_j) { i = end_i; j = end_j; } }`.
In this prototype the first component `i` varies fastest. -/
def rm2dNext (s : space2d) : Int × Int → Int × Int
  | (i, j) =>
    if s.end_i ≤ i + 1 then
      if s.end_j ≤ j + 1 then (s.end_i, s.end_j) else (s.start_i, j + 1)
    else (i + 1, j)

/-- Number of multi-indices in the cartesian product described by paired
bound lists: the product of the per-dimension extents `(l - s).toNat`. -/
def total : List Int → List Int → Nat
  | [], [] => 1
  | s :: ss, l :: ls => (l - s).toNat * total ss ls
  | _, _ => 0

/-- Bounds are well formed with strictly positive extent in every dimension
(`start[d] < limit[d]`, equal lengths). -/
def extentsPos : List Int → List Int → Bool
  | [], [] => true
  | s :: ss, l :: ls => decide (s < l) && extentsPos ss ls
  | _, _ => false

/-- Bounds are well formed with `start[d] <= limit[d]` in every dimension. -/
def startLe : List Int → List Int → Bool
  | [], [] => true
  | s :: ss, l :: ls => decide (s ≤ l) && startLe ss ls
  | _, _ => false

/-- Membership of an index tuple in the cartesian product
`[start_0, limit_0) x ... x [start_{D-1}, limit_{D-1})`. -/
def inSB : List Int → List Int → List Int → Bool
  | [], [], [] => true
  | s :: ss, l :: ls, a :: bs => decide (s ≤ a) && decide (a < l) && inSB ss ls bs
  | _, _, _ => false

/-- The k-th index tuple in column-major order (head = fastest dimension):
head entry `s + k % n`, tail indexed by `k / n`. -/
def cmUnrank : List Int → List Int → Nat → List Int
  | [], [], _ => []
  | s :: ss, l :: ls, k =>
    (s + ((k % (l - s).toNat : Nat) : Int)) :: cmUnrank ss ls (k / (l - s).toNat)
  | _, _, _ => []

/-- The k-th index tuple in row-major order (head = slowest dimension):
head entry `s + k / T` where `T` is the tail's total, tail indexed by
`k % T`. -/
def rmUnrank : List Int → List Int → Nat → List Int
  | [], [], _ => []
  | s :: ss, l :: ls, k =>
    (s + ((k / total ss ls : Nat) : Int)) :: rmUnrank ss ls (k % total ss ls)
  | _, _, _ => []

/-- Row-major rank of an index tuple (inverse of `rmUnrank` on the space). -/
def rmRank : List Int → List Int → List Int → Nat
  | s :: ss, _ :: ls, a :: bs => (a - s).toNat * total ss ls + rmRank ss ls bs
  | _, _, _ => 0

/-- Column-major rank of an index tuple (inverse of `cmUnrank`). -/
def cmRank : List Int → List Int → List Int → Nat
  | s :: ss, l :: ls, a :: bs => (a - s).toNat + (l - s).toNat * cmRank ss ls bs
  | _, _, _ => 0

/-- The multi-indices yielded by the driving loop over row-major order:
begin at `start`, and the k-th visited index is the k-th iterate of the
successor.  (The loop yields `total` indices; the guard facts are proved in
the claim theorems.) -/
def visitedRm (S : Space) : List (List Int) :=
  (List.range (total S.start S.limit)).map (fun k => (rmNext S)^[k] S.start)

/-- The multi-indices yielded by the driving loop over column-major order. -/
def visitedCm (S : Space) : List (List Int) :=
  (List.range (total S.start S.limit)).map (fun k => (cmNext S)^[k] S.start)

/-- The pairs yielded by driving the 2-D prototype's rm order for n steps. -/
def visited2d (s : space2d) (n : Nat) : List (Int × Int) :=
  (List.range n).map (fun k => (rm2dNext s)^[k] (s.start_i, s.start_j))

/-! Arithmetic helpers about division and remainder by a variable divisor. -/

lemma succ_mod_of_lt {k n : Nat} (h : k % n + 1 < n) : (k + 1) % n = k % n + 1 := by
  have e : k + 1 = (k % n + 1) + n * (k / n) := by
    have := Nat.div_add_mod k n
    omega
  rw [e, Nat.add_mul_mod_self_left, Nat.mod_eq_of_lt h]

lemma succ_div_of_lt {k n : Nat} (h : k % n + 1 < n) : (k + 1) / n = k / n := by
  have hn : 0 < n := by omega
  have e : k + 1 = (k % n + 1) + n * (k / n) := by
    have := Nat.div_add_mod k n
    omega
  rw [e, Nat.add_mul_div_left _ _ hn, Nat.div_eq_of_lt h, Nat.zero_add]

lemma succ_mod_of_eq {k n : Nat} (h : k % n + 1 = n) : (k + 1) % n = 0 := by
  have e : k + 1 = 0 + n * (k / n + 1) := by
    have h1 := Nat.div_add_mod k n
    have h2 : n * (k / n + 1) = n * (k / n) + n := by ring
    omega
  rw [e, Nat.add_mul_mod_self_left, Nat.zero_mod]

lemma succ_div_of_eq {k n : Nat} (h : k % n + 1 = n) : (k + 1) / n = k / n + 1 := by
  have hn : 0 < n := by omega
  have e : k + 1 = 0 + n * (k / n + 1) := by
    have h1 := Nat.div_add_mod k n
    have h2 : n * (k / n + 1) = n * (k / n) + n := by ring
    omega
  rw [e, Nat.add_mul_div_left _ _ hn, Nat.zero_div, Nat.zero_add]

lemma div_lt_of_lt_mul' {k n T : Nat} (hn : 0 < n) (hk : k < n * T) : k / n < T :=
  (Nat.div_lt_iff_lt_mul hn).2 (by rwa [Nat.mul_comm])

lemma succ_eq_mul_of_mod_eq {k n : Nat} (h : k % n + 1 = n) :
    k + 1 = n * (k / n + 1) := by
  have h1 := Nat.div_add_mod k n
  have h2 : n * (k / n + 1) = n * (k / n) + n := by ring
  omega

/-! Facts about `total`, `extentsPos` and the unrank functions. -/

lemma total_pos (ss ls : List Int) (h : extentsPos ss ls = true) : 0 < total ss ls := by
  induction ss generalizing ls with
  | nil =>
    cases ls with
    | nil => simp [total]
    | cons l ls => simp [extentsPos] at h
  | cons s ss ih =>
    cases ls with
    | nil => simp [extentsPos] at h
    | cons l ls =>
      simp only [extentsPos, Bool.and_eq_true, decide_eq_true_eq] at h
      exact Nat.mul_pos (by omega) (ih ls h.2)

lemma cmUnrank_zero (ss ls : List Int) (h : extentsPos ss ls = true) :
    cmUnrank ss ls 0 = ss := by
  induction ss generalizing ls with
  | nil =>
    cases ls with
    | nil => rfl
    | cons l ls => simp [extentsPos] at h
  | cons s ss ih =>
    cases ls with
    | nil => simp [extentsPos] at h
    | cons l ls =>
      simp only [extentsPos, Bool.and_eq_true, decide_eq_true_eq] at h
      simp [cmUnrank, Nat.zero_mod, Nat.zero_div, ih ls h.2]

lemma rmUnrank_zero (ss ls : List Int) (h : extentsPos ss ls = true) :
    rmUnrank ss ls 0 = ss := by
  induction ss generalizing ls with
  | nil =>
    cases ls with
    | nil => rfl
    | cons l ls => simp [extentsPos] at h
  | cons s ss ih =>
    cases ls with
    | nil => simp [extentsPos] at h
    | cons l ls =>
      simp only [extentsPos, Bool.and_eq_true, decide_eq_true_eq] at h
      simp [rmUnrank, Nat.zero_mod, Nat.zero_div, ih ls h.2]

lemma rm_step_cons_of_some (s l a : Int) (ss ls bs r : List Int)
    (h : rm_step ss ls bs = some r) :
    rm_step (s :: ss) (l :: ls) (a :: bs) = some (a :: r) := by
  simp [rm_step, h]

lemma rm_step_cons_of_none (s l a : Int) (ss ls bs : List Int)
    (h : rm_step ss ls bs = none) :
    rm_step (s :: ss) (l :: ls) (a :: bs) =
      if l ≤ a + 1 then none else some ((a + 1) :: ss) := by
  simp [rm_step, h]

/-- Single-step characterization of the column-major successor on ranked
indices: from the k-th tuple it reaches the (k+1)-th, and from the last one
it carries out (`none`, i.e. the terminal sentinel). -/
lemma cm_step_unrank (ss ls : List Int) (h : extentsPos ss ls = true) :
    ∀ k, k < total ss ls →
      cm_step ss ls (cmUnrank ss ls k) =
        if k + 1 = total ss ls then none else some (cmUnrank ss ls (k + 1)) := by
  induction ss generalizing ls with
  | nil =>
    cases ls with
    | nil =>
      intro k hk
      have hk0 : k = 0 := by simpa [total] using hk
      subst hk0
      rfl
    | cons l ls => simp [extentsPos] at h
  | cons s ss ih =>
    cases ls with
    | nil => simp [extentsPos] at h
    | cons l ls =>
      simp only [extentsPos, Bool.and_eq_true, decide_eq_true_eq] at h
      obtain ⟨hsl, htail⟩ := h
      intro k hk
      have hT : 0 < total ss ls := total_pos ss ls htail
      have hn : 0 < (l - s).toNat := by omega
      simp only [total] at hk ⊢
      simp only [cmUnrank, cm_step]
      have hmlt : k % (l - s).toNat < (l - s).toNat := Nat.mod_lt _ hn
      rcases Nat.lt_or_ge (k % (l - s).toNat + 1) ((l - s).toNat) with hlt | hge
      · have hcond : ¬ (l ≤ s + ((k % (l - s).toNat : Nat) : Int) + 1) := by omega
        rw [if_neg hcond]
        have hne : ¬ (k + 1 = (l - s).toNat * total ss ls) := by
          intro hEq
          have h1 := succ_mod_of_lt hlt
          rw [hEq, Nat.mul_mod_right] at h1
          omega
        rw [if_neg hne]
        simp only [cmUnrank, succ_mod_of_lt hlt, succ_div_of_lt hlt]
        refine congrArg some ?_
        congr 1
        push_cast
        ring
      · have heq : k % (l - s).toNat + 1 = (l - s).toNat := by omega
        have hcond : l ≤ s + ((k % (l - s).toNat : Nat) : Int) + 1 := by omega
        rw [if_pos hcond]
        have hdlt : k / (l - s).toNat < total ss ls := div_lt_of_lt_mul' hn hk
        rw [ih ls htail (k / (l - s).toNat) hdlt]
        have hstep := succ_eq_mul_of_mod_eq heq
        rcases Nat.lt_or_ge (k / (l - s).toNat + 1) (total ss ls) with hdl | hdg
        · rw [if_neg (by omega : ¬ (k / (l - s).toNat + 1 = total ss ls))]
          have hne2 : ¬ (k + 1 = (l - s).toNat * total ss ls) := by
            intro hEq
            rw [hstep] at hEq
            have := Nat.eq_of_mul_eq_mul_left hn hEq
            omega
          rw [if_neg hne2]
          simp only [Option.map_some']
          refine congrArg some ?_
          simp only [cmUnrank, succ_mod_of_eq heq, succ_div_of_eq heq]
          norm_num
        · have heq2 : k / (l - s).toNat + 1 = total ss ls := by omega
          rw [if_pos heq2]
          have hfin : k + 1 = (l - s).toNat * total ss ls := by
            rw [hstep, heq2]
          rw [if_pos hfin]
          rfl

/-- Single-step characterization of the row-major successor on ranked
indices. -/
lemma rm_step_unrank (ss ls : List Int) (h : extentsPos ss ls = true) :
    ∀ k, k < total ss ls →
      rm_step ss ls (rmUnrank ss ls k) =
        if k + 1 = total ss ls then none else some (rmUnrank ss ls (k + 1)) := by
  induction ss generalizing ls with
  | nil =>
    cases ls with
    | nil =>
      intro k hk
      have hk0 : k = 0 := by simpa [total] using hk
      subst hk0
      rfl
    | cons l ls => simp [extentsPos] at h
  | cons s ss ih =>
    cases ls with
    | nil => simp [extentsPos] at h
    | cons l ls =>
      simp only [extentsPos, Bool.and_eq_true, decide_eq_true_eq] at h
      obtain ⟨hsl, htail⟩ := h
      intro k hk
      have hT : 0 < total ss ls := total_pos ss ls htail
      have hn : 0 < (l - s).toNat := by omega
      simp only [total] at hk ⊢
      simp only [rmUnrank]
      have hmlt : k % total ss ls < total ss ls := Nat.mod_lt _ hT
      have htstep := ih ls htail (k % total ss ls) hmlt
      rcases Nat.lt_or_ge (k % total ss ls + 1) (total ss ls) with hlt | hge
      · rw [if_neg (by omega : ¬ (k % total ss ls + 1 = total ss ls))] at htstep
        rw [rm_step_cons_of_some _ _ _ _ _ _ _ htstep]
        have hne : ¬ (k + 1 = (l - s).toNat * total ss ls) := by
          intro hEq
          have h1 := succ_mod_of_lt hlt
          rw [hEq, Nat.mul_mod_left] at h1
          omega
        rw [if_neg hne]
        simp only [rmUnrank, succ_mod_of_lt hlt, succ_div_of_lt hlt]
      · have heq : k % total ss ls + 1 = total ss ls := by omega
        rw [if_pos heq] at htstep
        rw [rm_step_cons_of_none _ _ _ _ _ _ htstep]
        have hdlt : k / total ss ls < (l - s).toNat := (Nat.div_lt_iff_lt_mul hT).2 hk
        have hstep := succ_eq_mul_of_mod_eq heq
        rcases Nat.lt_or_ge (k / total ss ls + 1) ((l - s).toNat) with hdl | hdg
        · have hcond : ¬ (l ≤ s + ((k / total ss ls : Nat) : Int) + 1) := by omega
          rw [if_neg hcond]
          have hne2 : ¬ (k + 1 = (l - s).toNat * total ss ls) := by
            intro hEq
            have e : total ss ls * (k / total ss ls + 1) = total ss ls * (l - s).toNat := by
              rw [← hstep, hEq, Nat.mul_comm]
            have := Nat.eq_of_mul_eq_mul_left hT e
            omega
          rw [if_neg hne2]
          simp only [rmUnrank, succ_mod_of_eq heq, succ_div_of_eq heq,
            rmUnrank_zero ss ls htail]
          refine congrArg some ?_
          congr 1
          push_cast
          ring
        · have heq2 : k / total ss ls + 1 = (l - s).toNat := by omega
          have hcond : l ≤ s + ((k / total ss ls : Nat) : Int) + 1 := by omega
          rw [if_pos hcond]
          have hfin : k + 1 = (l - s).toNat * total ss ls := by
            rw [hstep, ← heq2]
            ring
          rw [if_pos hfin]

/-! Bridging the successor functions to iterated driving-loop advancement. -/

lemma rm_iterate_unrank (S : Space) (h : extentsPos S.start S.limit = true) :
    ∀ k, k < total S.start S.limit →
      (rmNext S)^[k] S.start = rmUnrank S.start S.limit k := by
  intro k
  induction k with
  | zero =>
    intro _
    simpa using (rmUnrank_zero S.start S.limit h).symm
  | succ k ih =>
    intro hk
    have hk' : k < total S.start S.limit := by omega
    rw [Function.iterate_succ_apply', ih hk', rmNext,
      rm_step_unrank S.start S.limit h k hk',
      if_neg (by omega : ¬ (k + 1 = total S.start S.limit)), Option.getD_some]

lemma cm_iterate_unrank (S : Space) (h : extentsPos S.start S.limit = true) :
    ∀ k, k < total S.start S.limit →
      (cmNext S)^[k] S.start = cmUnrank S.start S.limit k := by
  intro k
  induction k with
  | zero =>
    intro _
    simpa using (cmUnrank_zero S.start S.limit h).symm
  | succ k ih =>
    intro hk
    have hk' : k < total S.start S.limit := by omega
    rw [Function.iterate_succ_apply', ih hk', cmNext,
      cm_step_unrank S.start S.limit h k hk',
      if_neg (by omega : ¬ (k + 1 = total S.start S.limit)), Option.getD_some]

lemma rm_iterate_total (S : Space) (h : extentsPos S.start S.limit = true) :
    (rmNext S)^[total S.start S.limit] S.start = S.limit := by
  obtain ⟨t, he⟩ : ∃ t, total S.start S.limit = t + 1 :=
    ⟨total S.start S.limit - 1, by have := total_pos S.start S.limit h; omega⟩
  rw [he, Function.iterate_succ_apply', rm_iterate_unrank S h t (by omega), rmNext,
    rm_step_unrank S.start S.limit h t (by omega), if_pos (by omega), Option.getD_none]

lemma cm_iterate_total (S : Space) (h : extentsPos S.start S.limit = true) :
    (cmNext S)^[total S.start S.limit] S.start = S.limit := by
  obtain ⟨t, he⟩ : ∃ t, total S.start S.limit = t + 1 :=
    ⟨total S.start S.limit - 1, by have := total_pos S.start S.limit h; omega⟩
  rw [he, Function.iterate_succ_apply', cm_iterate_unrank S h t (by omega), cmNext,
    cm_step_unrank S.start S.limit h t (by omega), if_pos (by omega), Option.getD_none]

lemma rmUnrank_ne_limit (ss ls : List Int) (h : extentsPos ss ls = true)
    (hne : ss ≠ []) : ∀ k, k < total ss ls → rmUnrank ss ls k ≠ ls := by
  cases ss with
  | nil => exact absurd rfl hne
  | cons s ss =>
    cases ls with
    | nil => simp [extentsPos] at h
    | cons l ls =>
      simp only [extentsPos, Bool.and_eq_true, decide_eq_true_eq] at h
      obtain ⟨hsl, htail⟩ := h
      intro k hk heq
      have hT : 0 < total ss ls := total_pos ss ls htail
      simp only [total] at hk
      have hdlt : k / total ss ls < (l - s).toNat := (Nat.div_lt_iff_lt_mul hT).2 hk
      simp only [rmUnrank, List.cons.injEq] at heq
      have := heq.1
      omega

lemma cmUnrank_ne_limit (ss ls : List Int) (h : extentsPos ss ls = true)
    (hne : ss ≠ []) : ∀ k, k < total ss ls → cmUnrank ss ls k ≠ ls := by
  cases ss with
  | nil => exact absurd rfl hne
  | cons s ss =>
    cases ls with
    | nil => simp [extentsPos] at h
    | cons l ls =>
      simp only [extentsPos, Bool.and_eq_true, decide_eq_true_eq] at h
      obtain ⟨hsl, htail⟩ := h
      intro k hk heq
      have hn : 0 < (l - s).toNat := by omega
      have hmlt : k % (l - s).toNat < (l - s).toNat := Nat.mod_lt _ hn
      simp only [cmUnrank, List.cons.injEq] at heq
      have := heq.1
      omega

lemma rmUnrank_inj (ss ls : List Int) (h : extentsPos ss ls = true) :
    ∀ k1, k1 < total ss ls → ∀ k2, k2 < total ss ls →
      rmUnrank ss ls k1 = rmUnrank ss ls k2 → k1 = k2 := by
  induction ss generalizing ls with
  | nil =>
    cases ls with
    | nil =>
      intro k1 h1 k2 h2 _
      simp [total] at h1 h2
      omega
    | cons l ls => simp [extentsPos] at h
  | cons s ss ih =>
    cases ls with
    | nil => simp [extentsPos] at h
    | cons l ls =>
      simp only [extentsPos, Bool.and_eq_true, decide_eq_true_eq] at h
      obtain ⟨hsl, htail⟩ := h
      intro k1 h1 k2 h2 heq
      have hT : 0 < total ss ls := total_pos ss ls htail
      simp only [rmUnrank, List.cons.injEq] at heq
      obtain ⟨hhead, htails⟩ := heq
      have hdiv : k1 / total ss ls = k2 / total ss ls := by omega
      have hmod : k1 % total ss ls = k2 % total ss ls :=
        ih ls htail _ (Nat.mod_lt _ hT) _ (Nat.mod_lt _ hT) htails
      have e1 := Nat.div_add_mod k1 (total ss ls)
      have e2 := Nat.div_add_mod k2 (total ss ls)
      have e3 : total ss ls * (k1 / total ss ls) = total ss ls * (k2 / total ss ls) := by
        rw [hdiv]
      omega

lemma cmUnrank_inj (ss ls : List Int) (h : extentsPos ss ls = true) :
    ∀ k1, k1 < total ss ls → ∀ k2, k2 < total ss ls →
      cmUnrank ss ls k1 = cmUnrank ss ls k2 → k1 = k2 := by
  induction ss generalizing ls with
  | nil =>
    cases ls with
    | nil =>
      intro k1 h1 k2 h2 _
      simp [total] at h1 h2
      omega
    | cons l ls => simp [extentsPos] at h
  | cons s ss ih =>
    cases ls with
    | nil => simp [extentsPos] at h
    | cons l ls =>
      simp only [extentsPos, Bool.and_eq_true, decide_eq_true_eq] at h
      obtain ⟨hsl, htail⟩ := h
      intro k1 h1 k2 h2 heq
      have hT : 0 < total ss ls := total_pos ss ls htail
      have hn : 0 < (l - s).toNat := by omega
      simp only [total] at h1 h2
      simp only [cmUnrank, List.cons.injEq] at heq
      obtain ⟨hhead, htails⟩ := heq
      have hmod : k1 % (l - s).toNat = k2 % (l - s).toNat := by omega
      have hdivlt1 : k1 / (l - s).toNat < total ss ls := div_lt_of_lt_mul' hn h1
      have hdivlt2 : k2 / (l - s).toNat < total ss ls := div_lt_of_lt_mul' hn h2
      have hdiv : k1 / (l - s).toNat = k2 / (l - s).toNat :=
        ih ls htail _ hdivlt1 _ hdivlt2 htails
      have e1 := Nat.div_add_mod k1 ((l - s).toNat)
      have e2 := Nat.div_add_mod k2 ((l - s).toNat)
      have e3 : (l - s).toNat * (k1 / (l - s).toNat)
          = (l - s).toNat * (k2 / (l - s).toNat) := by rw [hdiv]
      omega

lemma rmUnrank_mem (ss ls : List Int) (h : extentsPos ss ls = true) :
    ∀ k, k < total ss ls → inSB ss ls (rmUnrank ss ls k) = true := by
  induction ss generalizing ls with
  | nil =>
    cases ls with
    | nil => intro k _; rfl
    | cons l ls => simp [extentsPos] at h
  | cons s ss ih =>
    cases ls with
    | nil => simp [extentsPos] at h
    | cons l ls =>
      simp only [extentsPos, Bool.and_eq_true, decide_eq_true_eq] at h
      obtain ⟨hsl, htail⟩ := h
      intro k hk
      have hT : 0 < total ss ls := total_pos ss ls htail
      simp only [total] at hk
      have hdlt : k / total ss ls < (l - s).toNat := (Nat.div_lt_iff_lt_mul hT).2 hk
      simp only [rmUnrank, inSB, Bool.and_eq_true, decide_eq_true_eq]
      refine ⟨?_, ih ls htail _ (Nat.mod_lt _ hT)⟩
      revert hdlt
      generalize k / total ss ls = q
      intro hdlt
      omega

lemma cmUnrank_mem (ss ls : List Int) (h : extentsPos ss ls = true) :
    ∀ k, k < total ss ls → inSB ss ls (cmUnrank ss ls k) = true := by
  induction ss generalizing ls with
  | nil =>
    cases ls with
    | nil => intro k _; rfl
    | cons l ls => simp [extentsPos] at h
  | cons s ss ih =>
    cases ls with
    | nil => simp [extentsPos] at h
    | cons l ls =>
      simp only [extentsPos, Bool.and_eq_true, decide_eq_true_eq] at h
      obtain ⟨hsl, htail⟩ := h
      intro k hk
      have hT : 0 < total ss ls := total_pos ss ls htail
      have hn : 0 < (l - s).toNat := by omega
      simp only [total] at hk
      have hmlt : k % (l - s).toNat < (l - s).toNat := Nat.mod_lt _ hn
      simp only [cmUnrank, inSB, Bool.and_eq_true, decide_eq_true_eq]
      refine ⟨?_, ih ls htail _ (div_lt_of_lt_mul' hn hk)⟩
      revert hmlt
      generalize k % (l - s).toNat = q
      intro hmlt
      omega

lemma rmRank_lt_unrank (ss ls : List Int) (h : extentsPos ss ls = true) :
    ∀ bs, inSB ss ls bs = true →
      rmRank ss ls bs < total ss ls ∧ rmUnrank ss ls (rmRank ss ls bs) = bs := by
  induction ss generalizing ls with
  | nil =>
    cases ls with
    | nil =>
      intro bs hbs
      cases bs with
      | nil => exact ⟨by simp [total, rmRank], rfl⟩
      | cons b bs => simp [inSB] at hbs
    | cons l ls => simp [extentsPos] at h
  | cons s ss ih =>
    cases ls with
    | nil => simp [extentsPos] at h
    | cons l ls =>
      simp only [extentsPos, Bool.and_eq_true, decide_eq_true_eq] at h
      obtain ⟨hsl, htail⟩ := h
      intro bs hbs
      cases bs with
      | nil => simp [inSB] at hbs
      | cons a bs =>
        simp only [inSB, Bool.and_eq_true, decide_eq_true_eq] at hbs
        obtain ⟨⟨hsa, hal⟩, hbs⟩ := hbs
        obtain ⟨ihlt, ihun⟩ := ih ls htail bs hbs
        have hT : 0 < total ss ls := total_pos ss ls htail
        have hh : (a - s).toNat < (l - s).toNat := by omega
        constructor
        · simp only [total, rmRank]
          have e1 : ((a - s).toNat + 1) * total ss ls ≤ (l - s).toNat * total ss ls :=
            Nat.mul_le_mul_right _ (by omega)
          have e2 : ((a - s).toNat + 1) * total ss ls
              = (a - s).toNat * total ss ls + total ss ls := by ring
          omega
        · simp only [rmRank, rmUnrank]
          have hdiv : ((a - s).toNat * total ss ls + rmRank ss ls bs) / total ss ls
              = (a - s).toNat := by
            rw [Nat.add_comm, Nat.mul_comm, Nat.add_mul_div_left _ _ hT,
              Nat.div_eq_of_lt ihlt, Nat.zero_add]
          have hmod : ((a - s).toNat * total ss ls + rmRank ss ls bs) % total ss ls
              = rmRank ss ls bs := by
            rw [Nat.add_comm, Nat.mul_comm, Nat.add_mul_mod_self_left,
              Nat.mod_eq_of_lt ihlt]
          rw [hdiv, hmod, ihun]
          congr 1
          omega

lemma cmRank_lt_unrank (ss ls : List Int) (h : extentsPos ss ls = true) :
    ∀ bs, inSB ss ls bs = true →
      cmRank ss ls bs < total ss ls ∧ cmUnrank ss ls (cmRank ss ls bs) = bs := by
  induction ss generalizing ls with
  | nil =>
    cases ls with
    | nil =>
      intro bs hbs
      cases bs with
      | nil => exact ⟨by simp [total, cmRank], rfl⟩
      | cons b bs => simp [inSB] at hbs
    | cons l ls => simp [extentsPos] at h
  | cons s ss ih =>
    cases ls with
    | nil => simp [extentsPos] at h
    | cons l ls =>
      simp only [extentsPos, Bool.and_eq_true, decide_eq_true_eq] at h
      obtain ⟨hsl, htail⟩ := h
      intro bs hbs
      cases bs with
      | nil => simp [inSB] at hbs
      | cons a bs =>
        simp only [inSB, Bool.and_eq_true, decide_eq_true_eq] at hbs
        obtain ⟨⟨hsa, hal⟩, hbs⟩ := hbs
        obtain ⟨ihlt, ihun⟩ := ih ls htail bs hbs
        have hT : 0 < total ss ls := total_pos ss ls htail
        have hn : 0 < (l - s).toNat := by omega
        have hh : (a - s).toNat < (l - s).toNat := by omega
        constructor
        · simp only [total, cmRank]
          have e1 : (l - s).toNat * (cmRank ss ls bs + 1)
              ≤ (l - s).toNat * total ss ls := Nat.mul_le_mul_left _ (by omega)
          have e2 : (l - s).toNat * (cmRank ss ls bs + 1)
              = (l - s).toNat * cmRank ss ls bs + (l - s).toNat := by ring
          omega
        · simp only [cmRank, cmUnrank]
          have hmod : ((a - s).toNat + (l - s).toNat * cmRank ss ls bs) % (l - s).toNat
              = (a - s).toNat := by
            rw [Nat.add_mul_mod_self_left, Nat.mod_eq_of_lt hh]
          have hdiv : ((a - s).toNat + (l - s).toNat * cmRank ss ls bs) / (l - s).toNat
              = cmRank ss ls bs := by
            rw [Nat.add_mul_div_left _ _ hn, Nat.div_eq_of_lt hh, Nat.zero_add]
          rw [hdiv, hmod, ihun]
          congr 1
          omega

/-! Properties of the visited-index lists. -/

lemma rm_visited_nodup (S : Space) (h : extentsPos S.start S.limit = true) :
    (visitedRm S).Nodup := by
  refine List.Nodup.map_on ?_ (List.nodup_range _)
  intro k1 hk1 k2 hk2 heq
  rw [List.mem_range] at hk1 hk2
  rw [rm_iterate_unrank S h k1 hk1, rm_iterate_unrank S h k2 hk2] at heq
  exact rmUnrank_inj S.start S.limit h k1 hk1 k2 hk2 heq

lemma cm_visited_nodup (S : Space) (h : extentsPos S.start S.limit = true) :
    (visitedCm S).Nodup := by
  refine List.Nodup.map_on ?_ (List.nodup_range _)
  intro k1 hk1 k2 hk2 heq
  rw [List.mem_range] at hk1 hk2
  rw [cm_iterate_unrank S h k1 hk1, cm_iterate_unrank S h k2 hk2] at heq
  exact cmUnrank_inj S.start S.limit h k1 hk1 k2 hk2 heq

lemma rm_visited_mem (S : Space) (h : extentsPos S.start S.limit = true) :
    ∀ a, a ∈ visitedRm S ↔ inSB S.start S.limit a = true := by
  intro a
  constructor
  · intro ha
    rw [visitedRm, List.mem_map] at ha
    obtain ⟨k, hk, rfl⟩ := ha
    rw [List.mem_range] at hk
    rw [rm_iterate_unrank S h k hk]
    exact rmUnrank_mem S.start S.limit h k hk
  · intro ha
    obtain ⟨hlt, hun⟩ := rmRank_lt_unrank S.start S.limit h a ha
    rw [visitedRm, List.mem_map]
    exact ⟨rmRank S.start S.limit a, List.mem_range.2 hlt,
      by rw [rm_iterate_unrank S h _ hlt, hun]⟩

lemma cm_visited_mem (S : Space) (h : extentsPos S.start S.limit = true) :
    ∀ a, a ∈ visitedCm S ↔ inSB S.start S.limit a = true := by
  intro a
  constructor
  · intro ha
    rw [visitedCm, List.mem_map] at ha
    obtain ⟨k, hk, rfl⟩ := ha
    rw [List.mem_range] at hk
    rw [cm_iterate_unrank S h k hk]
    exact cmUnrank_mem S.start S.limit h k hk
  · intro ha
    obtain ⟨hlt, hun⟩ := cmRank_lt_unrank S.start S.limit h a ha
    rw [visitedCm, List.mem_map]
    exact ⟨cmRank S.start S.limit a, List.mem_range.2 hlt,
      by rw [cm_iterate_unrank S h _ hlt, hun]⟩

lemma rm_step_limit (ss ls : List Int) : rm_step ss ls ls = none := by
  induction ls generalizing ss with
  | nil => cases ss <;> rfl
  | cons l ls ih =>
    cases ss with
    | nil => rfl
    | cons s ss =>
      rw [rm_step_cons_of_none s l l ss ls ls (ih ss)]
      rw [if_pos (by omega : l ≤ l + 1)]

lemma cm_step_limit (ss ls : List Int) : cm_step ss ls ls = none := by
  induction ls generalizing ss with
  | nil => cases ss <;> rfl
  | cons l ls ih =>
    cases ss with
    | nil => rfl
    | cons s ss =>
      simp only [cm_step]
      rw [if_pos (by omega : l ≤ l + 1), ih ss]
      rfl

/-! The claim theorems. -/

/-- Claim C3: for every space with at least one dimension (`iteration<0>` is
deleted in the source) whose per-dimension extents are all strictly positive,
the row-major driving loop — begin at `first(S)`, run while the cursor
compares unequal to the end cursor, yield then advance — terminates after
visiting exactly `n0 * ... * n_{D-1}` multi-indices: the guard holds at every
iterate before `total` and fails at iterate `total`, the visited indices are
pairwise distinct, and their set is the full cartesian product of the
half-open per-dimension ranges. -/
theorem rm_loop_correct (S : Space) (hpos : extentsPos S.start S.limit = true)
    (hD : S.start ≠ []) :
    (visitedRm S).length = total S.start S.limit ∧
    (∀ k, k < total S.start S.limit →
      iterNe ⟨(rmNext S)^[k] S.start, S⟩ (endIter S) = true) ∧
    iterNe ⟨(rmNext S)^[total S.start S.limit] S.start, S⟩ (endIter S) = false ∧
    (visitedRm S).Nodup ∧
    (∀ a, a ∈ visitedRm S ↔ inSB S.start S.limit a = true) := by
  refine ⟨by simp [visitedRm], ?_, ?_, rm_visited_nodup S hpos, rm_visited_mem S hpos⟩
  · intro k hk
    rw [rm_iterate_unrank S hpos k hk]
    have hne := rmUnrank_ne_limit S.start S.limit hpos hD k hk
    simp [iterNe, endIter, spaceNe]
    exact Ne.symm hne
  · rw [rm_iterate_total S hpos]
    simp [iterNe, endIter, spaceNe]

/-- Witness for C3 at the concrete 3x3 space of the spec's example. -/
theorem rm_loop_correct_w :
    extentsPos [1, 1] [4, 4] = true ∧
    ([1, 1] : List Int) ≠ [] ∧
    ((visitedRm ⟨[1, 1], [4, 4]⟩).length = total [1, 1] [4, 4] ∧
     (∀ k, k < total [1, 1] [4, 4] →
       iterNe ⟨(rmNext ⟨[1, 1], [4, 4]⟩)^[k] [1, 1], ⟨[1, 1], [4, 4]⟩⟩
         (endIter ⟨[1, 1], [4, 4]⟩) = true) ∧
     iterNe ⟨(rmNext ⟨[1, 1], [4, 4]⟩)^[total [1, 1] [4, 4]] [1, 1], ⟨[1, 1], [4, 4]⟩⟩
       (endIter ⟨[1, 1], [4, 4]⟩) = false ∧
     (visitedRm ⟨[1, 1], [4, 4]⟩).Nodup ∧
     (∀ a, a ∈ visitedRm ⟨[1, 1], [4, 4]⟩ ↔ inSB [1, 1] [4, 4] a = true)) :=
  ⟨by decide, by decide, rm_loop_correct ⟨[1, 1], [4, 4]⟩ (by decide) (by decide)⟩

/-- Claim C7: for every space whose per-dimension extents are all strictly
positive, the multiset of multi-indices visited in row-major order equals the
multiset visited in column-major order (the lists are permutations of each
other). -/
theorem rm_cm_perm (S : Space) (hpos : extentsPos S.start S.limit = true) :
    List.Perm (visitedRm S) (visitedCm S) :=
  (List.perm_ext_iff_of_nodup (rm_visited_nodup S hpos) (cm_visited_nodup S hpos)).2
    (fun a => (rm_visited_mem S hpos a).trans (cm_visited_mem S hpos a).symm)

/-- Witness for C7 at the 3x3 space. -/
theorem rm_cm_perm_w :
    extentsPos [1, 1] [4, 4] = true ∧
    List.Perm (visitedRm ⟨[1, 1], [4, 4]⟩) (visitedCm ⟨[1, 1], [4, 4]⟩) :=
  ⟨by decide, rm_cm_perm ⟨[1, 1], [4, 4]⟩ (by decide)⟩

/-- Claim C8: two cursors compare equal (their `operator!=` yields `false`)
iff their index tuples are equal and their bound spaces are equal
element-wise in both `start` and `limit`; cursors bound to unequal spaces
always compare unequal, even with identical index tuples. -/
theorem iter_eq_iff (a b : iteration) :
    (iterNe a b = false ↔
      a.index = b.index ∧ a.space.start = b.space.start ∧
        a.space.limit = b.space.limit) ∧
    (a.space ≠ b.space → iterNe a b = true) := by
  obtain ⟨ai, aspace⟩ := a
  obtain ⟨sa, la⟩ := aspace
  obtain ⟨bi, bspace⟩ := b
  obtain ⟨sb, lb⟩ := bspace
  have key : iterNe ⟨ai, ⟨sa, la⟩⟩ ⟨bi, ⟨sb, lb⟩⟩ = false ↔
      (ai = bi ∧ sa = sb ∧ la = lb) := by
    simp only [iterNe, spaceNe, Bool.or_eq_false_iff, decide_eq_false_iff_not,
      not_not]
    exact ⟨fun h => ⟨h.1.symm, h.2.1.symm, h.2.2.symm⟩,
      fun h => ⟨h.1.symm, h.2.1.symm, h.2.2.symm⟩⟩
  refine ⟨key, ?_⟩
  intro hne
  by_contra hb
  rw [Bool.not_eq_true] at hb
  obtain ⟨_, h2, h3⟩ := key.1 hb
  exact hne (by rw [h2, h3])

/-- Witness for C8: concrete cursors with equal indices but unequal spaces
compare unequal. -/
theorem iter_eq_iff_w :
    (iteration.mk [0] ⟨[0], [1]⟩).space ≠ (iteration.mk [0] ⟨[0], [2]⟩).space ∧
    iterNe ⟨[0], ⟨[0], [1]⟩⟩ ⟨[0], ⟨[0], [2]⟩⟩ = true :=
  ⟨by decide, (iter_eq_iff ⟨[0], ⟨[0], [1]⟩⟩ ⟨[0], ⟨[0], [2]⟩⟩).2 (by decide)⟩

/-- Claim C6: for every worker count `W >= 1`, the partition computed for the
last worker (`worker_id = W - 1`) keeps the original upper-bound tuple
unchanged — in particular `limit[dim]` — so the remainder `size % W` stays in
the last worker's slice. -/
theorem partition_last_limit (S : Space) (dim : Nat) (W : Int) (hW : 1 ≤ W) :
    (partition S dim (W - 1) W).limit = S.limit := by
  simp [partition]

/-- Witness for C6 at the spec's partition example. -/
theorem partition_last_limit_w :
    (1 : Int) ≤ 2 ∧
    (partition ⟨[1], [99]⟩ 0 (2 - 1) 2).limit = (Space.mk [1] [99]).limit :=
  ⟨by norm_num, partition_last_limit ⟨[1], [99]⟩ 0 2 (by norm_num)⟩

/-- Claim C10: advancing from the terminal index tuple (`limit`) leaves it at
the terminal tuple, for both the row-major and the column-major successor, on
every space with `start[d] <= limit[d]` in every dimension; advancing a
cursor already at terminal therefore silently stays at terminal. -/
theorem next_terminal_fixed (S : Space) (h : startLe S.start S.limit = true) :
    rmNext S S.limit = S.limit ∧ cmNext S S.limit = S.limit := by
  rw [rmNext, cmNext, rm_step_limit, cm_step_limit]
  exact ⟨rfl, rfl⟩

/-- Witness for C10 at a concrete 2-D space. -/
theorem next_terminal_fixed_w :
    startLe [1, 2] [3, 4] = true ∧
    (rmNext ⟨[1, 2], [3, 4]⟩ (Space.mk [1, 2] [3, 4]).limit
        = (Space.mk [1, 2] [3, 4]).limit ∧
      cmNext ⟨[1, 2], [3, 4]⟩ (Space.mk [1, 2] [3, 4]).limit
        = (Space.mk [1, 2] [3, 4]).limit) :=
  ⟨by decide, next_terminal_fixed ⟨[1, 2], [3, 4]⟩ (by decide)⟩

/-- Claim C4 counterexample: on the spec's 3x3 example space the row-major
order of the source (`impl::rm_next`, last dimension fastest) does not yield
the claimed sequence `(1,1),(2,1),(3,1),...` — already the second visited
index is `(1,2)`, not `(2,1)`. -/
theorem rm_example_cex :
    visitedRm ⟨[1, 1], [4, 4]⟩ ≠
      [[1, 1], [2, 1], [3, 1], [1, 2], [2, 2], [3, 2], [1, 3], [2, 3], [3, 3]] ∧
    rmNext ⟨[1, 1], [4, 4]⟩ [1, 1] = [1, 2] := by
  decide

/-- Claim C4 as amended: on the space `start=[1,1], limit=[4,4]` the row-major
order of `impl::rm_next` yields the 9 indices with the LAST dimension varying
fastest; the sequence claimed in the spec (first dimension fastest) is the one
produced by the column-major order `impl::cm_next` — and also by the 2-D
prototype's `_rm_order::next`, whose `i` (first) component is fastest. -/
theorem rm_cm_example_traj :
    visitedRm ⟨[1, 1], [4, 4]⟩ =
      [[1, 1], [1, 2], [1, 3], [2, 1], [2, 2], [2, 3], [3, 1], [3, 2], [3, 3]] ∧
    visitedCm ⟨[1, 1], [4, 4]⟩ =
      [[1, 1], [2, 1], [3, 1], [1, 2], [2, 2], [3, 2], [1, 3], [2, 3], [3, 3]] ∧
    visited2d ⟨1, 4, 1, 4⟩ 9 =
      [(1, 1), (2, 1), (3, 1), (1, 2), (2, 2), (3, 2), (1, 3), (2, 3), (3, 3)] := by
  decide

/-- Claim C1 evaluation at the spec's own example: partitioning
`start[0]=1, limit[0]=99` for worker 0 of 2 yields `start[0]=0, limit[0]=49`
— the code drops the original offset `S.start[0]` — not the claimed
`start[0]=1, limit[0]=50`. -/
theorem partition_offset_eval :
    partition ⟨[1], [99]⟩ 0 0 2 = ⟨[0], [49]⟩ ∧
    partition ⟨[1], [99]⟩ 0 0 2 ≠ ⟨[1], [50]⟩ := by
  decide

/-- Claim C2 evaluation: on `start[0]=1, limit[0]=99`, W=2 the two slices
computed by the code are `[0,49)` and `[49,99)`; index 0 lies in worker 0's
slice but not in the original space, so the union of the slices is `[0,99)`,
not the original `[1,99)`. -/
theorem partition_union_eval :
    (partition ⟨[1], [99]⟩ 0 0 2).start = [0] ∧
    (partition ⟨[1], [99]⟩ 0 0 2).limit = [49] ∧
    (partition ⟨[1], [99]⟩ 0 1 2).start = [49] ∧
    (partition ⟨[1], [99]⟩ 0 1 2).limit = [99] ∧
    inSB (partition ⟨[1], [99]⟩ 0 0 2).start (partition ⟨[1], [99]⟩ 0 0 2).limit
      [0] = true ∧
    inSB [1] [99] [0] = false := by
  decide

/-- Claim C5 evaluation: on the space `start=[0,0], limit=[0,3]` — dimension 0
has zero length — the begin cursor does NOT equal the end cursor, and the
row-major loop in fact visits `[0,0], [0,1], [0,2]` before reaching the
terminal tuple after 3 advancements, instead of iterating zero times. -/
theorem degenerate_dim_eval :
    iterNe (beginIter ⟨[0, 0], [0, 3]⟩) (endIter ⟨[0, 0], [0, 3]⟩) = true ∧
    (rmNext ⟨[0, 0], [0, 3]⟩)^[1] [0, 0] = [0, 1] ∧
    (rmNext ⟨[0, 0], [0, 3]⟩)^[2] [0, 0] = [0, 2] ∧
    (rmNext ⟨[0, 0], [0, 3]⟩)^[3] [0, 0] = [0, 3] := by
  decide

/-- Claim C9 counterexample: called with the out-of-range `worker_id = 5` of
`worker_count = 2`, the partition operation does not fail: it returns the
ordinary (degenerate, out-of-bounds) space `[245, 294)` computed by the same
unchecked formula. -/
theorem partition_invalid_id_eval :
    partition ⟨[1], [99]⟩ 0 5 2 = ⟨[245], [294]⟩ := by
  decide

/-- Claim C9 as amended: the partition operation validates nothing — for
every space, split dimension, `worker_id` and `worker_count` (in range or
not) it synchronously returns a space of the same shape, leaving every
dimension other than the split one unchanged; validity of `worker_id` and
`worker_count` is guaranteed by the OpenMP runtime, not checked by the
code. -/
theorem partition_unchecked (S : Space) (dim : Nat) (id W : Int) (d2 : Nat)
    (hd : d2 ≠ dim) :
    (partition S dim id W).start.length = S.start.length ∧
    (partition S dim id W).limit.length = S.limit.length ∧
    (partition S dim id W).start.getD d2 0 = S.start.getD d2 0 ∧
    (partition S dim id W).limit.getD d2 0 = S.limit.getD d2 0 := by
  have hsd : dim ≠ d2 := fun e => hd e.symm
  refine ⟨?_, ?_, ?_, ?_⟩
  · simp [partition, List.length_set]
  · by_cases hc : id ≠ W - 1 <;> simp [partition, hc, List.length_set]
  · simp only [partition]
    rw [List.getD_eq_getElem?_getD, List.getD_eq_getElem?_getD,
      List.getElem?_set_ne hsd, ← List.getD_eq_getElem?_getD]
  · by_cases hc : id ≠ W - 1
    · simp only [partition, if_pos hc]
      rw [List.getD_eq_getElem?_getD, List.getD_eq_getElem?_getD,
        List.getElem?_set_ne hsd, ← List.getD_eq_getElem?_getD]
    · simp [partition, hc]

/-- Witness for the amended C9 at concrete out-of-range arguments. -/
theorem partition_unchecked_w :
    (1 : Nat) ≠ 0 ∧
    ((partition ⟨[1, 2], [3, 4]⟩ 0 7 2).start.length
        = (Space.mk [1, 2] [3, 4]).start.length ∧
      (partition ⟨[1, 2], [3, 4]⟩ 0 7 2).limit.length
        = (Space.mk [1, 2] [3, 4]).limit.length ∧
      (partition ⟨[1, 2], [3, 4]⟩ 0 7 2).start.getD 1 0
        = (Space.mk [1, 2] [3, 4]).start.getD 1 0 ∧
      (partition ⟨[1, 2], [3, 4]⟩ 0 7 2).limit.getD 1 0
        = (Space.mk [1, 2] [3, 4]).limit.getD 1 0) :=
  ⟨by decide, partition_unchecked ⟨[1, 2], [3, 4]⟩ 0 7 2 1 (by decide)⟩

end Curly
